import Mathlib

/-!
# Verification of the notification grouping engine

Shallow embedding of `groupNotifications` from `web/hooks/use-notifications.ts`
(Manifold), together with proofs of the grouping invariants stated in the
design document: partition of the input, key uniqueness, income/normal
classification, per-group sort order and the seen-flag rollups.

The TypeScript function uses lodash `groupBy` / `partition` / `map` over plain
objects with string keys, and `Array.prototype.sort` with the comparator
`(a, b) => b.createdTime - a.createdTime`.  The embedding reproduces their
documented semantics:

* lodash `groupBy` produces a plain object, and lodash `map` / `Object.keys`
  enumerate its string keys in ECMAScript OwnPropertyKeys order: array-index
  keys (canonical numeric strings whose value is below 2^32 - 1) first, in
  ascending numeric order, then all remaining keys in property-creation
  order, which for `groupBy` is the order of first appearance of each key in
  the input.  Each bucket holds the matching elements in input order; a key
  value of `undefined` is stringified to the property name `"undefined"`;
* lodash `partition` returns `(filter p, filter (not p))`, both in input order;
* `Array.prototype.sort` is stable (ES2019), so with a comparator describing a
  total preorder its result is the unique stable descending reordering, which
  the insertion sort below computes.

The day label `new Date(createdTime).toDateString()` depends on the ambient
timezone; the embedding abstracts it as a parameter `dayOf : Int → String`, so
every theorem holds for every day-labelling function.
-/

/-- A notification record, the atomic input unit.  `sourceType` and
`sourceContractId` are optional fields (`undefined` when absent in JS). -/
structure Notification where
  id : String
  createdTime : Int
  isSeen : Bool
  sourceType : Option String
  sourceContractId : Option String
deriving DecidableEq, Repr

/-- Group category: the `type` field of `NotificationGroup`. -/
inductive GroupType where
  | income
  | normal
deriving DecidableEq, Repr

/-- A notification group, the derived display-facing entity
(`NotificationGroup` in the source). -/
structure NotificationGroup where
  notifications : List Notification
  groupedById : String
  isSeen : Bool
  timePeriod : String
  type : GroupType
deriving DecidableEq, Repr

/-- The fixed income-classification set (`incomeSourceTypes` in the source). -/
def incomeSourceTypes : List String :=
  ["bonus", "tip", "loan", "betting_streak_bonus", "tip_and_like"]

/-- The partition predicate of the source:
`incomeSourceTypes.includes(notification.sourceType ?? '')`. -/
def isIncome (n : Notification) : Bool :=
  incomeSourceTypes.contains (n.sourceType.getD "")

/-- The grouping key used by `groupBy(normalNotificationsGroupedByDay,
n => n.sourceContractId)`: a JS object property key is a string, and an
`undefined` key value is stringified to the property name `"undefined"`. -/
def contractKey (n : Notification) : String :=
  match n.sourceContractId with
  | some c => c
  | none => "undefined"

/-- First-appearance deduplication of a key list: the property-creation
order of the distinct keys of a JS object built by repeated insertion. -/
def dedupFirst : List String → List String
  | [] => []
  | k :: ks => k :: (dedupFirst ks).filter (fun k2 => k2 ≠ k)

/-- The numeric value of a digit string (most significant digit first). -/
def digitsVal (cs : List Char) : Nat :=
  cs.foldl (fun acc c => acc * 10 + (c.toNat - 48)) 0

/-- ECMAScript array-index test for a property key: a canonical decimal
numeral (nonempty, digits only, no leading zero except "0" itself) whose
value is below 2^32 - 1. -/
def isArrayIndex (s : String) : Bool :=
  match s.toList with
  | [] => false
  | c :: cs =>
    (c :: cs).all Char.isDigit &&
    (cs.isEmpty || c != '0') &&
    digitsVal (c :: cs) < 2 ^ 32 - 1

/-- Insertion into a list sorted ascending by numeric value. -/
def insertAsc (s : String) : List String → List String
  | [] => [s]
  | t :: ts =>
    if digitsVal s.toList ≤ digitsVal t.toList then s :: t :: ts
    else t :: insertAsc s ts

/-- Ascending numeric sort of (array-index) key strings. -/
def sortAsc : List String → List String
  | [] => []
  | s :: ss => insertAsc s (sortAsc ss)

/-- The ECMAScript OwnPropertyKeys enumeration order of the distinct string
keys of an object built by inserting the keys of `ks` in order: array-index
keys first, in ascending numeric order, then the remaining keys in
property-creation (first-appearance) order. -/
def jsKeys (ks : List String) : List String :=
  sortAsc ((dedupFirst ks).filter isArrayIndex) ++
    (dedupFirst ks).filter (fun k => !isArrayIndex k)

/-- lodash `groupBy` with string keys: association list whose keys appear in
JS enumeration order (`jsKeys`), each bucket holding the elements with that
key in input order. -/
def groupByKey {α : Type} (key : α → String) (l : List α) :
    List (String × List α) :=
  (jsKeys (l.map key)).map (fun k => (k, l.filter (fun x => key x = k)))

/-- Stable insertion (descending by `createdTime`) of one record into an
already-sorted list: the record goes before the first element whose
`createdTime` is at most its own, so earlier input elements with equal time
stay in front. -/
def insertDesc (n : Notification) : List Notification → List Notification
  | [] => [n]
  | m :: ms =>
    if m.createdTime ≤ n.createdTime then n :: m :: ms
    else m :: insertDesc n ms

/-- Stable descending sort by `createdTime`: the embedding of
`.sort((a, b) => b.createdTime - a.createdTime)` (ES2019 `sort` is stable, and
a stable sort for a total preorder is extensionally unique). -/
def sortDesc : List Notification → List Notification
  | [] => []
  | n :: ns => insertDesc n (sortDesc ns)

/-- The normal group built for one contract-key bucket of one day
(the `notificationGroup` object literal in the source). -/
def normalGroup (day : String) (p : String × List Notification) :
    NotificationGroup :=
  { notifications := sortDesc p.2
    groupedById := p.1
    isSeen := (sortDesc p.2).any (fun n => !n.isSeen)
    timePeriod := day
    type := GroupType.normal }

/-- The income groups of one day: the guarded
`if (incomeNotifications.length > 0) { ... }` block — a singleton whose
`isSeen` is `incomeNotifications[0].isSeen`, or nothing. -/
def incomeGroups (day : String) : List Notification → List NotificationGroup
  | [] => []
  | first :: rest =>
    [{ notifications := first :: rest
       groupedById := "income" ++ day
       isSeen := first.isSeen
       timePeriod := day
       type := GroupType.income }]

/-- The groups emitted for one day bucket: the body of the
`Object.keys(notificationGroupsByDay).forEach((day) => ...)` loop.  The day's
records are partitioned into `incomeNotifications` and
`normalNotificationsGroupedByDay` (lodash `partition` is
`(filter p, filter (not p))`); an income group is emitted first when any
income records exist, then one normal group per contract-key bucket. -/
def dayGroups (day : String) (dayNs : List Notification) :
    List NotificationGroup :=
  incomeGroups day (dayNs.filter isIncome) ++
    (groupByKey contractKey (dayNs.filter (fun n => !isIncome n))).map
      (normalGroup day)

/-- The grouping engine `groupNotifications`: group by day label (keys in
first-appearance order), then per day emit the income group (if any) followed
by the per-contract normal groups. -/
def groupNotifications (dayOf : Int → String) (notifications : List Notification) :
    List NotificationGroup :=
  (groupByKey (fun n => dayOf n.createdTime) notifications).flatMap
    (fun p => dayGroups p.1 p.2)

/-! ## Basic lemmas about the building blocks -/

theorem mem_dedupFirst {k : String} : ∀ {ks : List String},
    k ∈ dedupFirst ks ↔ k ∈ ks := by
  intro ks
  induction ks with
  | nil => simp [dedupFirst]
  | cons k0 ks ih =>
    by_cases hk : k = k0
    · subst hk
      simp [dedupFirst]
    · simp [dedupFirst, List.mem_filter, hk, ih]

theorem dedupFirst_nodup : ∀ (ks : List String), (dedupFirst ks).Nodup := by
  intro ks
  induction ks with
  | nil => simp [dedupFirst]
  | cons k0 ks ih =>
    refine List.Nodup.cons ?_ (List.Nodup.filter _ ih)
    intro hmem
    have := (List.mem_filter.mp hmem).2
    simp at this

theorem insertAsc_perm (s : String) (l : List String) :
    (insertAsc s l).Perm (s :: l) := by
  induction l with
  | nil => simp [insertAsc]
  | cons t ts ih =>
    by_cases h : digitsVal s.toList ≤ digitsVal t.toList
    · simp only [insertAsc, if_pos h]
      exact List.Perm.refl _
    · simp only [insertAsc, if_neg h]
      exact List.Perm.trans (List.Perm.cons t ih) (List.Perm.swap s t ts)

theorem sortAsc_perm (l : List String) : (sortAsc l).Perm l := by
  induction l with
  | nil => simp [sortAsc]
  | cons s ss ih =>
    exact List.Perm.trans (insertAsc_perm s (sortAsc ss)) (List.Perm.cons s ih)

theorem mem_jsKeys {k : String} {ks : List String} :
    k ∈ jsKeys ks ↔ k ∈ ks := by
  unfold jsKeys
  rw [List.mem_append, (sortAsc_perm _).mem_iff]
  constructor
  · rintro (h | h)
    · exact mem_dedupFirst.mp (List.mem_filter.mp h).1
    · exact mem_dedupFirst.mp (List.mem_filter.mp h).1
  · intro h
    by_cases hai : isArrayIndex k
    · exact Or.inl (List.mem_filter.mpr ⟨mem_dedupFirst.mpr h, by simp [hai]⟩)
    · exact Or.inr (List.mem_filter.mpr ⟨mem_dedupFirst.mpr h, by simp [hai]⟩)

theorem jsKeys_nodup (ks : List String) : (jsKeys ks).Nodup := by
  unfold jsKeys
  rw [List.nodup_append]
  refine ⟨?_, List.Nodup.filter _ (dedupFirst_nodup ks), ?_⟩
  · exact (sortAsc_perm _).symm.nodup
      (List.Nodup.filter _ (dedupFirst_nodup ks))
  · intro k hk hk2
    have h1 : isArrayIndex k = true :=
      (List.mem_filter.mp ((sortAsc_perm _).mem_iff.mp hk)).2
    have h2 := (List.mem_filter.mp hk2).2
    rw [h1] at h2
    exact absurd h2 (by simp)

theorem groupByKey_map_fst {α : Type} (key : α → String) (l : List α) :
    (groupByKey key l).map Prod.fst = jsKeys (l.map key) := by
  simp [groupByKey, List.map_map, Function.comp_def]

theorem mem_groupByKey_iff {α : Type} {key : α → String} {l : List α}
    {p : String × List α} :
    p ∈ groupByKey key l ↔
      p.1 ∈ jsKeys (l.map key) ∧
        p.2 = l.filter (fun x => key x = p.1) := by
  constructor
  · intro h
    rcases List.mem_map.mp h with ⟨k, hk, hp⟩
    subst hp
    exact ⟨hk, rfl⟩
  · intro ⟨h1, h2⟩
    refine List.mem_map.mpr ⟨p.1, h1, ?_⟩
    exact Prod.ext rfl h2.symm

theorem mem_of_mem_groupByKey_snd {α : Type} {key : α → String} {l : List α}
    {p : String × List α} (hp : p ∈ groupByKey key l) {x : α} (hx : x ∈ p.2) :
    x ∈ l ∧ key x = p.1 := by
  rcases (mem_groupByKey_iff.mp hp).2 ▸ hx with hx'
  have := List.mem_filter.mp hx'
  exact ⟨this.1, by simpa using this.2⟩

theorem groupByKey_snd_ne_nil {α : Type} {key : α → String} {l : List α}
    {p : String × List α} (hp : p ∈ groupByKey key l) : p.2 ≠ [] := by
  rcases mem_groupByKey_iff.mp hp with ⟨h1, h2⟩
  have hk : p.1 ∈ l.map key := mem_jsKeys.mp h1
  rcases List.mem_map.mp hk with ⟨x, hx, hkx⟩
  intro hnil
  have : x ∈ p.2 := by
    rw [h2]
    exact List.mem_filter.mpr ⟨hx, by simp [hkx]⟩
  rw [hnil] at this
  exact absurd this (List.not_mem_nil x)

/-- Concatenating the buckets of a nodup key list that covers `l` gives back a
permutation of `l`. -/
theorem flatten_buckets_perm {α : Type} (key : α → String) :
    ∀ (ks : List String) (l : List α), ks.Nodup → (∀ x ∈ l, key x ∈ ks) →
      ((ks.map (fun k => l.filter (fun x => key x = k))).flatten).Perm l := by
  intro ks
  induction ks with
  | nil =>
    intro l _ hcov
    have : l = [] := List.eq_nil_iff_forall_not_mem.mpr (fun a ha => by
      have := hcov a ha
      simp at this)
    simp [this]
  | cons k ks ih =>
    intro l hnd hcov
    have hnd' : ks.Nodup := (List.nodup_cons.mp hnd).2
    have hknotin : k ∉ ks := (List.nodup_cons.mp hnd).1
    have hrest :
        ks.map (fun k2 => l.filter (fun x => key x = k2)) =
          ks.map (fun k2 =>
            (l.filter (fun x => ¬(key x = k))).filter (fun x => key x = k2)) := by
      apply List.map_congr_left
      intro k2 hk2
      have hne : k2 ≠ k := by
        intro h
        exact hknotin (h ▸ hk2)
      rw [List.filter_filter]
      apply List.filter_congr
      intro x _
      by_cases h : key x = k2
      · simp [h, hne]
      · simp [h]
    have hcov' : ∀ x ∈ l.filter (fun x => ¬(key x = k)), key x ∈ ks := by
      intro x hx
      have hx' := List.mem_filter.mp hx
      have := hcov x hx'.1
      have hne : ¬(key x = k) := by simpa using hx'.2
      simp at this
      rcases this with h | h
      · exact absurd h hne
      · exact h
    have ihr := ih (l.filter (fun x => ¬(key x = k))) hnd' hcov'
    have hstep : ((k :: ks).map (fun k2 => l.filter (fun x => key x = k2))).flatten
        = l.filter (fun x => key x = k) ++
            (ks.map (fun k2 =>
              (l.filter (fun x => ¬(key x = k))).filter
                (fun x => key x = k2))).flatten := by
      rw [List.map_cons, List.flatten_cons, hrest]
    rw [hstep]
    refine List.Perm.trans (List.Perm.append (List.Perm.refl _) ihr) ?_
    have hfp := List.filter_append_perm (fun x => decide (key x = k)) l
    simpa using hfp

theorem groupByKey_flatten_perm {α : Type} (key : α → String) (l : List α) :
    (((groupByKey key l).map Prod.snd).flatten).Perm l := by
  have hmap : (groupByKey key l).map Prod.snd =
      (jsKeys (l.map key)).map (fun k => l.filter (fun x => key x = k)) := by
    simp [groupByKey, List.map_map, Function.comp_def]
  rw [hmap]
  apply flatten_buckets_perm
  · exact jsKeys_nodup _
  · intro x hx
    exact mem_jsKeys.mpr (List.mem_map.mpr ⟨x, hx, rfl⟩)

/-! ## Lemmas about the stable descending sort -/

theorem insertDesc_perm (n : Notification) (l : List Notification) :
    (insertDesc n l).Perm (n :: l) := by
  induction l with
  | nil => simp [insertDesc]
  | cons m ms ih =>
    by_cases h : m.createdTime ≤ n.createdTime
    · simp [insertDesc, h]
    · simp only [insertDesc, if_neg h]
      exact List.Perm.trans (List.Perm.cons m ih) (List.Perm.swap n m ms)

theorem sortDesc_perm (l : List Notification) : (sortDesc l).Perm l := by
  induction l with
  | nil => simp [sortDesc]
  | cons n ns ih =>
    exact List.Perm.trans (insertDesc_perm n (sortDesc ns)) (List.Perm.cons n ih)

theorem insertDesc_pairwise {n : Notification} {l : List Notification}
    (h : l.Pairwise (fun a b => b.createdTime ≤ a.createdTime)) :
    (insertDesc n l).Pairwise (fun a b => b.createdTime ≤ a.createdTime) := by
  induction l with
  | nil => simp [insertDesc]
  | cons m ms ih =>
    rcases List.pairwise_cons.mp h with ⟨hm, hms⟩
    by_cases hle : m.createdTime ≤ n.createdTime
    · simp only [insertDesc, if_pos hle]
      refine List.pairwise_cons.mpr ⟨?_, h⟩
      intro b hb
      rcases List.mem_cons.mp hb with hb | hb
      · rw [hb]
        exact hle
      · exact le_trans (hm b hb) hle
    · simp only [insertDesc, if_neg hle]
      refine List.pairwise_cons.mpr ⟨?_, ih hms⟩
      intro b hb
      have := (insertDesc_perm n ms).mem_iff.mp hb
      rcases List.mem_cons.mp this with hb' | hb'
      · rw [hb']
        omega
      · exact hm b hb'

theorem sortDesc_pairwise (l : List Notification) :
    (sortDesc l).Pairwise (fun a b => b.createdTime ≤ a.createdTime) := by
  induction l with
  | nil => simp [sortDesc]
  | cons n ns ih => exact insertDesc_pairwise ih

/-- Stability of the insertion: records with any fixed `createdTime` value are
in the same relative order before and after inserting, with the new record (if
it has that time) in front — every record the insertion walks past has a
strictly larger `createdTime`. -/
theorem filter_time_insertDesc (t : Int) (n : Notification)
    (l : List Notification) :
    (insertDesc n l).filter (fun m => m.createdTime = t) =
      if n.createdTime = t then
        n :: l.filter (fun m => m.createdTime = t)
      else l.filter (fun m => m.createdTime = t) := by
  induction l with
  | nil =>
    by_cases h : n.createdTime = t <;> simp [insertDesc, h]
  | cons m ms ih =>
    simp only [insertDesc]
    by_cases hle : m.createdTime ≤ n.createdTime
    · rw [if_pos hle]
      by_cases hn : n.createdTime = t <;> simp [List.filter_cons, hn]
    · rw [if_neg hle]
      by_cases hm : m.createdTime = t
      · have hn : ¬(n.createdTime = t) := by omega
        simp [List.filter_cons, hm, ih, hn]
      · simp [List.filter_cons, hm, ih]

/-- Stability of the sort: for every time value, the records carrying it
appear in the sorted list exactly in their original order. -/
theorem filter_time_sortDesc (t : Int) (l : List Notification) :
    (sortDesc l).filter (fun m => m.createdTime = t) =
      l.filter (fun m => m.createdTime = t) := by
  induction l with
  | nil => simp [sortDesc]
  | cons n ns ih =>
    by_cases hn : n.createdTime = t <;>
      simp [sortDesc, filter_time_insertDesc, hn, List.filter_cons, ih]

/-! ## The per-day groups give back the day's records -/

theorem flatMap_perm_congr {α β : Type} {f g : α → List β} :
    ∀ {l : List α}, (∀ x ∈ l, (f x).Perm (g x)) →
      (l.flatMap f).Perm (l.flatMap g) := by
  intro l
  induction l with
  | nil => simp
  | cons x xs ih =>
    intro h
    simp only [List.flatMap_cons]
    exact List.Perm.append (h x (List.mem_cons_self x xs))
      (ih (fun y hy => h y (List.mem_cons_of_mem x hy)))

theorem incomeGroups_flatMap (day : String) (inc : List Notification) :
    (incomeGroups day inc).flatMap (fun g => g.notifications) = inc := by
  cases inc with
  | nil => simp [incomeGroups]
  | cons first rest => simp [incomeGroups]

theorem dayGroups_flatMap_perm (day : String) (dayNs : List Notification) :
    ((dayGroups day dayNs).flatMap (fun g => g.notifications)).Perm dayNs := by
  have hsplit : (dayGroups day dayNs).flatMap (fun g => g.notifications) =
      dayNs.filter isIncome ++
        ((groupByKey contractKey (dayNs.filter (fun n => !isIncome n))).map
          (normalGroup day)).flatMap (fun g => g.notifications) := by
    simp [dayGroups, List.flatMap_append, incomeGroups_flatMap]
  rw [hsplit]
  have hnormal : (((groupByKey contractKey
      (dayNs.filter (fun n => !isIncome n))).map
        (normalGroup day)).flatMap (fun g => g.notifications)).Perm
      (dayNs.filter (fun n => !isIncome n)) := by
    rw [List.flatMap_map]
    have h1 : ((groupByKey contractKey
        (dayNs.filter (fun n => !isIncome n))).flatMap
          (fun p => (normalGroup day p).notifications)).Perm
        ((groupByKey contractKey
          (dayNs.filter (fun n => !isIncome n))).flatMap Prod.snd) := by
      apply flatMap_perm_congr
      intro p _
      exact sortDesc_perm p.2
    refine List.Perm.trans h1 ?_
    rw [List.flatMap_def]
    exact groupByKey_flatten_perm contractKey _
  have happ := List.Perm.append (List.Perm.refl (dayNs.filter isIncome)) hnormal
  refine List.Perm.trans happ ?_
  exact List.filter_append_perm isIncome dayNs

/-- C1 main theorem body: the concatenation of all groups' members is a
permutation of the input. -/
theorem groupNotifications_flatMap_perm (dayOf : Int → String)
    (ns : List Notification) :
    ((groupNotifications dayOf ns).flatMap (fun g => g.notifications)).Perm ns := by
  unfold groupNotifications
  rw [List.flatMap_assoc]
  have h1 : ((groupByKey (fun n => dayOf n.createdTime) ns).flatMap
      (fun p => (dayGroups p.1 p.2).flatMap (fun g => g.notifications))).Perm
      ((groupByKey (fun n => dayOf n.createdTime) ns).flatMap Prod.snd) := by
    apply flatMap_perm_congr
    intro p _
    exact dayGroups_flatMap_perm p.1 p.2
  refine List.Perm.trans h1 ?_
  rw [List.flatMap_def]
  exact groupByKey_flatten_perm _ ns

/-! ## Membership characterization of the output groups -/

theorem mem_groupNotifications_iff {g : NotificationGroup} {dayOf : Int → String}
    {ns : List Notification} :
    g ∈ groupNotifications dayOf ns ↔
      ∃ day ∈ jsKeys (ns.map (fun n => dayOf n.createdTime)),
        g ∈ dayGroups day (ns.filter (fun n => dayOf n.createdTime = day)) := by
  unfold groupNotifications
  rw [List.mem_flatMap]
  constructor
  · rintro ⟨p, hp, hg⟩
    rcases mem_groupByKey_iff.mp hp with ⟨h1, h2⟩
    refine ⟨p.1, h1, ?_⟩
    rwa [← h2]
  · rintro ⟨day, hday, hg⟩
    exact ⟨(day, ns.filter (fun n => dayOf n.createdTime = day)),
      mem_groupByKey_iff.mpr ⟨hday, rfl⟩, hg⟩

theorem mem_incomeGroups {g : NotificationGroup} {day : String}
    {inc : List Notification} (h : g ∈ incomeGroups day inc) :
    g.notifications = inc ∧ g.groupedById = "income" ++ day ∧
      g.timePeriod = day ∧ g.type = GroupType.income ∧
      ∃ first rest, inc = first :: rest ∧ g.isSeen = first.isSeen := by
  cases inc with
  | nil => simp [incomeGroups] at h
  | cons first rest =>
    simp only [incomeGroups, List.mem_singleton] at h
    subst h
    exact ⟨rfl, rfl, rfl, rfl, first, rest, rfl, rfl⟩

/-- Every member of `dayGroups day dayNs` is either the (unique) income group
of the day or a normal group built from one contract-key bucket of the day's
normal records. -/
theorem mem_dayGroups_cases {g : NotificationGroup} {day : String}
    {dayNs : List Notification} (h : g ∈ dayGroups day dayNs) :
    g ∈ incomeGroups day (dayNs.filter isIncome) ∨
      ∃ p ∈ groupByKey contractKey (dayNs.filter (fun n => !isIncome n)),
        g = normalGroup day p := by
  rcases List.mem_append.mp h with h | h
  · exact Or.inl h
  · rcases List.mem_map.mp h with ⟨p, hp, hg⟩
    exact Or.inr ⟨p, hp, hg.symm⟩

theorem timePeriod_of_mem_dayGroups {g : NotificationGroup} {day : String}
    {dayNs : List Notification} (h : g ∈ dayGroups day dayNs) :
    g.timePeriod = day := by
  rcases mem_dayGroups_cases h with h | ⟨p, _, hg⟩
  · exact (mem_incomeGroups h).2.2.1
  · rw [hg]
    rfl

/-- A normal group in the output arises from exactly one contract-key bucket
of its day's normal records. -/
theorem normal_mem_dayGroups {g : NotificationGroup} {day : String}
    {dayNs : List Notification} (h : g ∈ dayGroups day dayNs)
    (ht : g.type = GroupType.normal) :
    ∃ p ∈ groupByKey contractKey (dayNs.filter (fun n => !isIncome n)),
      g = normalGroup day p := by
  rcases mem_dayGroups_cases h with h | h
  · have := (mem_incomeGroups h).2.2.2.1
    rw [ht] at this
    exact absurd this (by simp)
  · exact h

/-- Two entries of one `groupByKey` result with the same key are the same
entry: the bucket is determined by the key. -/
theorem groupByKey_eq_of_fst_eq {α : Type} {key : α → String} {l : List α}
    {p q : String × List α} (hp : p ∈ groupByKey key l)
    (hq : q ∈ groupByKey key l) (hfst : p.1 = q.1) : p = q := by
  rcases mem_groupByKey_iff.mp hp with ⟨_, h2⟩
  rcases mem_groupByKey_iff.mp hq with ⟨_, h4⟩
  refine Prod.ext hfst ?_
  rw [h2, h4, hfst]

/-- Every member of a normal group carries the group's contract key. -/
theorem contractKey_of_mem_normalGroup {g : NotificationGroup} {day : String}
    {dayNs : List Notification} (h : g ∈ dayGroups day dayNs)
    (ht : g.type = GroupType.normal) {n : Notification}
    (hn : n ∈ g.notifications) :
    contractKey n = g.groupedById ∧ n ∈ dayNs ∧ isIncome n = false := by
  rcases normal_mem_dayGroups h ht with ⟨p, hp, hg⟩
  rw [hg] at hn
  have hn' : n ∈ p.2 := (sortDesc_perm p.2).mem_iff.mp hn
  have hmem := mem_of_mem_groupByKey_snd hp hn'
  have hnl := List.mem_filter.mp hmem.1
  refine ⟨?_, hnl.1, by simpa using hnl.2⟩
  rw [hg]
  exact hmem.2

/-! ## Key uniqueness infrastructure -/

theorem normal_part_triples (day : String) (l : List Notification) :
    (((groupByKey contractKey l).map (normalGroup day)).map
        (fun g => (g.timePeriod, g.type, g.groupedById))) =
      (jsKeys (l.map contractKey)).map
        (fun k => (day, GroupType.normal, k)) := by
  simp [groupByKey, List.map_map, Function.comp_def, normalGroup]

theorem dayGroups_triples_nodup (day : String) (dayNs : List Notification) :
    ((dayGroups day dayNs).map
      (fun g => (g.timePeriod, g.type, g.groupedById))).Nodup := by
  unfold dayGroups
  rw [List.map_append, List.nodup_append]
  refine ⟨?_, ?_, ?_⟩
  · cases dayNs.filter isIncome with
    | nil => simp [incomeGroups]
    | cons f r => simp [incomeGroups]
  · rw [normal_part_triples]
    refine List.Nodup.map ?_ (jsKeys_nodup _)
    intro a b hab
    simpa using hab
  · intro t ht ht2
    rw [normal_part_triples] at ht2
    rcases List.mem_map.mp ht with ⟨g, hg, hgt⟩
    rcases List.mem_map.mp ht2 with ⟨k, _, hk⟩
    have h1 : t.2.1 = GroupType.income := by
      rw [← hgt]
      exact (mem_incomeGroups hg).2.2.2.1
    have h2 : t.2.1 = GroupType.normal := by
      rw [← hk]
    rw [h1] at h2
    exact absurd h2 (by simp)

theorem triple_fst_of_mem_dayGroups {day : String} {dayNs : List Notification}
    {t : String × GroupType × String}
    (ht : t ∈ (dayGroups day dayNs).map
      (fun g => (g.timePeriod, g.type, g.groupedById))) : t.1 = day := by
  rcases List.mem_map.mp ht with ⟨g, hg, hgt⟩
  rw [← hgt]
  exact timePeriod_of_mem_dayGroups hg

theorem groupByKey_nodup {α : Type} (key : α → String) (l : List α) :
    (groupByKey key l).Nodup :=
  List.Nodup.of_map Prod.fst
    (by rw [groupByKey_map_fst]; exact jsKeys_nodup _)

theorem groupNotifications_triples_nodup (dayOf : Int → String)
    (ns : List Notification) :
    ((groupNotifications dayOf ns).map
      (fun g => (g.timePeriod, g.type, g.groupedById))).Nodup := by
  unfold groupNotifications
  rw [List.map_flatMap, List.flatMap_def, List.nodup_flatten]
  constructor
  · intro l hl
    rcases List.mem_map.mp hl with ⟨p, _, hlp⟩
    rw [← hlp]
    exact dayGroups_triples_nodup p.1 p.2
  · rw [List.pairwise_map]
    have hnd : ((groupByKey (fun n => dayOf n.createdTime) ns).map
        Prod.fst).Nodup := by
      rw [groupByKey_map_fst]
      exact jsKeys_nodup _
    have hpw : (groupByKey (fun n => dayOf n.createdTime) ns).Pairwise
        (fun p q => p.1 ≠ q.1) := List.pairwise_map.mp hnd
    refine hpw.imp ?_
    intro p q hne t htp htq
    exact hne ((triple_fst_of_mem_dayGroups htp).symm.trans
      (triple_fst_of_mem_dayGroups htq))

/-! ## The income-group filter of the output -/

theorem flatMap_eq_of_unique {α β : Type} {l : List α} {f : α → List β} {x : α}
    (hnd : l.Nodup) (hx : x ∈ l) (hother : ∀ y ∈ l, y ≠ x → f y = []) :
    l.flatMap f = f x := by
  induction l with
  | nil => simp at hx
  | cons y ys ih =>
    rcases List.nodup_cons.mp hnd with ⟨hy, hys⟩
    rcases List.mem_cons.mp hx with hx' | hx'
    · subst hx'
      have hnil : ys.flatMap f = [] :=
        List.flatMap_eq_nil_iff.mpr (fun z hz =>
          hother z (List.mem_cons_of_mem _ hz) (fun h => hy (h ▸ hz)))
      simp [List.flatMap_cons, hnil]
    · have hyx : y ≠ x := fun h => hy (h ▸ hx')
      have hfy : f y = [] := hother y (List.mem_cons_self _ _) hyx
      rw [List.flatMap_cons, hfy, List.nil_append]
      exact ih hys hx' (fun z hz hzx =>
        hother z (List.mem_cons_of_mem _ hz) hzx)

theorem dayGroups_income_filter (day d : String) (dayNs : List Notification) :
    (dayGroups d dayNs).filter
        (fun g => decide (g.type = GroupType.income) &&
          decide (g.timePeriod = day)) =
      (if d = day then incomeGroups d (dayNs.filter isIncome) else []) := by
  unfold dayGroups
  rw [List.filter_append]
  have h1 : (incomeGroups d (dayNs.filter isIncome)).filter
      (fun g => decide (g.type = GroupType.income) &&
        decide (g.timePeriod = day)) =
      (if d = day then incomeGroups d (dayNs.filter isIncome) else []) := by
    cases dayNs.filter isIncome with
    | nil => simp [incomeGroups]
    | cons f r =>
      by_cases hd : d = day
      · subst hd
        simp [incomeGroups]
      · simp [incomeGroups, hd]
  have h2 : (((groupByKey contractKey
      (dayNs.filter (fun n => !isIncome n))).map (normalGroup d)).filter
        (fun g => decide (g.type = GroupType.income) &&
          decide (g.timePeriod = day))) = [] := by
    rw [List.filter_eq_nil_iff]
    intro g hg
    rcases List.mem_map.mp hg with ⟨p, _, hgp⟩
    rw [← hgp]
    simp [normalGroup]
  rw [h1, h2, List.append_nil]

theorem groupNotifications_income_filter (dayOf : Int → String)
    (ns : List Notification) (day : String)
    (hday : day ∈ jsKeys (ns.map (fun n => dayOf n.createdTime))) :
    (groupNotifications dayOf ns).filter
        (fun g => decide (g.type = GroupType.income) &&
          decide (g.timePeriod = day)) =
      incomeGroups day
        ((ns.filter (fun n => dayOf n.createdTime = day)).filter isIncome) := by
  unfold groupNotifications
  rw [List.filter_flatMap]
  have hxmem : (day, ns.filter (fun n => dayOf n.createdTime = day)) ∈
      groupByKey (fun n => dayOf n.createdTime) ns :=
    mem_groupByKey_iff.mpr ⟨hday, rfl⟩
  have hother : ∀ y ∈ groupByKey (fun n => dayOf n.createdTime) ns,
      y ≠ (day, ns.filter (fun n => dayOf n.createdTime = day)) →
      (dayGroups y.1 y.2).filter
        (fun g => decide (g.type = GroupType.income) &&
          decide (g.timePeriod = day)) = [] := by
    intro y hy hyx
    rw [dayGroups_income_filter]
    have hne : y.1 ≠ day := by
      intro h
      exact hyx (groupByKey_eq_of_fst_eq hy hxmem (by rw [h]))
    simp [hne]
  rw [flatMap_eq_of_unique (groupByKey_nodup _ _) hxmem hother,
    dayGroups_income_filter]
  simp

/-! ## Claim theorems -/

/-- C1: for every finite input sequence, the multiset union of the members of
all groups returned by `groupNotifications` equals the input multiset exactly
— no record is dropped and none appears in more than one group. -/
theorem groupNotifications_partition_property (dayOf : Int → String)
    (ns : List Notification) :
    ((groupNotifications dayOf ns).flatMap (fun g => g.notifications)).Perm
      ns :=
  groupNotifications_flatMap_perm dayOf ns

/-- C2 counterexample: `groupedById` values are NOT pairwise distinct across
the whole output — the same contract on two different days yields two normal
groups with the same key `"c"`. -/
theorem groupKeys_not_globally_unique :
    ¬ ((groupNotifications (fun t => if t < 1000 then "d1" else "d2")
        [⟨"a", 0, true, none, some "c"⟩,
         ⟨"b", 2000, true, none, some "c"⟩]).map
          (fun g => g.groupedById)).Nodup := by
  decide

/-- C2 (amended): the `(timePeriod, type, groupedById)` triples of the output
groups of one invocation are pairwise distinct — `groupedById` alone is only
unique within one day and category. -/
theorem groupNotifications_key_triples_distinct (dayOf : Int → String)
    (ns : List Notification) :
    ((groupNotifications dayOf ns).map
      (fun g => (g.timePeriod, g.type, g.groupedById))).Nodup :=
  groupNotifications_triples_nodup dayOf ns

/-- C3 counterexample: a normal record with no `sourceContractId` lands in a
group whose `groupedById` is the string `"undefined"` (the JS stringification
of the absent key), not the empty-string sentinel. -/
theorem missing_contract_key_not_empty_string :
    (groupNotifications (fun _ => "d") [⟨"a", 0, true, none, none⟩]).map
        (fun g => g.groupedById) = ["undefined"] ∧
      ("undefined" : String) ≠ "" := by
  constructor
  · decide
  · decide

/-- C3 (amended): all normal records of a day lacking a `sourceContractId`
are collapsed into a single normal group for that day, and that group's
`groupedById` is the string `"undefined"` (the JS property-key string of the
absent value), not the empty string. -/
theorem missing_contract_records_single_group (dayOf : Int → String)
    (ns : List Notification) (g1 g2 : NotificationGroup)
    (h1 : g1 ∈ groupNotifications dayOf ns)
    (h2 : g2 ∈ groupNotifications dayOf ns)
    (ht1 : g1.type = GroupType.normal) (ht2 : g2.type = GroupType.normal)
    (hday : g1.timePeriod = g2.timePeriod)
    (hn1 : ∃ n ∈ g1.notifications, n.sourceContractId = none)
    (hn2 : ∃ n ∈ g2.notifications, n.sourceContractId = none) :
    g1 = g2 ∧ g1.groupedById = "undefined" := by
  rcases mem_groupNotifications_iff.mp h1 with ⟨d1, _, hm1⟩
  rcases mem_groupNotifications_iff.mp h2 with ⟨d2, _, hm2⟩
  have hd1 : g1.timePeriod = d1 := timePeriod_of_mem_dayGroups hm1
  have hd2 : g2.timePeriod = d2 := timePeriod_of_mem_dayGroups hm2
  have hdd : d1 = d2 := by rw [← hd1, ← hd2, hday]
  subst hdd
  rcases hn1 with ⟨n1, hn1m, hc1⟩
  rcases hn2 with ⟨n2, hn2m, hc2⟩
  have hk1 := (contractKey_of_mem_normalGroup hm1 ht1 hn1m).1
  have hk2 := (contractKey_of_mem_normalGroup hm2 ht2 hn2m).1
  have hu1 : g1.groupedById = "undefined" := by
    rw [← hk1, contractKey, hc1]
  have hu2 : g2.groupedById = "undefined" := by
    rw [← hk2, contractKey, hc2]
  refine ⟨?_, hu1⟩
  rcases normal_mem_dayGroups hm1 ht1 with ⟨p1, hp1, hg1⟩
  rcases normal_mem_dayGroups hm2 ht2 with ⟨p2, hp2, hg2⟩
  have hfst : p1.1 = p2.1 := by
    have e1 : p1.1 = g1.groupedById := by rw [hg1]; rfl
    have e2 : p2.1 = g2.groupedById := by rw [hg2]; rfl
    rw [e1, e2, hu1, hu2]
  have : p1 = p2 := groupByKey_eq_of_fst_eq hp1 hp2 hfst
  rw [hg1, hg2, this]

/-- C3 witness: a single record with no contract id produces exactly the
normal group with key "undefined"; the amended theorem applies to it. -/
theorem missing_contract_records_single_group_witness :
    ((⟨[⟨"w3", 0, true, none, none⟩], "undefined", false, "d3",
        GroupType.normal⟩ : NotificationGroup) =
      ⟨[⟨"w3", 0, true, none, none⟩], "undefined", false, "d3",
        GroupType.normal⟩) ∧
    (⟨[⟨"w3", 0, true, none, none⟩], "undefined", false, "d3",
        GroupType.normal⟩ : NotificationGroup).groupedById = "undefined" :=
  missing_contract_records_single_group (fun _ => "d3")
    [⟨"w3", 0, true, none, none⟩]
    ⟨[⟨"w3", 0, true, none, none⟩], "undefined", false, "d3",
      GroupType.normal⟩
    ⟨[⟨"w3", 0, true, none, none⟩], "undefined", false, "d3",
      GroupType.normal⟩
    (by decide) (by decide) rfl rfl rfl
    ⟨⟨"w3", 0, true, none, none⟩, by decide, rfl⟩
    ⟨⟨"w3", 0, true, none, none⟩, by decide, rfl⟩

/-- C4: for every day with at least one income-classified record, the output
contains exactly one income group for that day; it holds exactly that day's
income records in input order (no re-sort), its key is `"income" ++ day`, and
its seen flag is the `isSeen` of the first income record of the day (a
passthrough, not an any-unseen aggregate). -/
theorem groupNotifications_income_group (dayOf : Int → String)
    (ns : List Notification) (day : String)
    (h : ∃ n ∈ ns, dayOf n.createdTime = day ∧ isIncome n = true) :
    ∃ g, (groupNotifications dayOf ns).filter
        (fun g => decide (g.type = GroupType.income) &&
          decide (g.timePeriod = day)) = [g] ∧
      g.notifications =
        (ns.filter (fun n => dayOf n.createdTime = day)).filter isIncome ∧
      g.groupedById = "income" ++ day ∧
      g.timePeriod = day ∧
      (∀ n0, g.notifications.head? = some n0 → g.isSeen = n0.isSeen) := by
  rcases h with ⟨n, hn, hd, hinc⟩
  have hday : day ∈ jsKeys (ns.map (fun n => dayOf n.createdTime)) :=
    mem_jsKeys.mpr (List.mem_map.mpr ⟨n, hn, hd⟩)
  have hfilter := groupNotifications_income_filter dayOf ns day hday
  have hmem : n ∈
      (ns.filter (fun n => dayOf n.createdTime = day)).filter isIncome := by
    rw [List.mem_filter]
    exact ⟨List.mem_filter.mpr ⟨hn, by simp [hd]⟩, hinc⟩
  cases hinc' :
      (ns.filter (fun n => dayOf n.createdTime = day)).filter isIncome with
  | nil =>
    rw [hinc'] at hmem
    exact absurd hmem (List.not_mem_nil n)
  | cons first rest =>
    rw [hinc'] at hfilter
    refine ⟨⟨first :: rest, "income" ++ day, first.isSeen, day,
      GroupType.income⟩, ?_, ?_, rfl, rfl, ?_⟩
    · rw [hfilter]
      rfl
    · rfl
    · intro n0 h0
      have hfirst : n0 = first := by
        simp only [List.head?_cons, Option.some.injEq] at h0
        exact h0.symm
      rw [hfirst]

/-- C4 witness: one tip record makes its day's unique income group. -/
theorem groupNotifications_income_group_witness :
    ∃ g, (groupNotifications (fun _ => "d4")
        [⟨"w4", 5, true, some "tip", some "c"⟩]).filter
        (fun g => decide (g.type = GroupType.income) &&
          decide (g.timePeriod = "d4")) = [g] ∧
      g.notifications =
        (([⟨"w4", 5, true, some "tip", some "c"⟩] :
          List Notification).filter
            (fun n => (fun _ : Int => "d4") n.createdTime = "d4")).filter
          isIncome ∧
      g.groupedById = "income" ++ "d4" ∧
      g.timePeriod = "d4" ∧
      (∀ n0, g.notifications.head? = some n0 → g.isSeen = n0.isSeen) :=
  groupNotifications_income_group (fun _ => "d4")
    [⟨"w4", 5, true, some "tip", some "c"⟩] "d4"
    ⟨⟨"w4", 5, true, some "tip", some "c"⟩, by decide, rfl, by decide⟩

/-- C5: a normal group's rollup flag `isSeen` is true iff at least one member
has `isSeen = false`. -/
theorem normalGroup_rollup (dayOf : Int → String) (ns : List Notification)
    (g : NotificationGroup) (hg : g ∈ groupNotifications dayOf ns)
    (ht : g.type = GroupType.normal) :
    g.isSeen = true ↔ ∃ n ∈ g.notifications, n.isSeen = false := by
  rcases mem_groupNotifications_iff.mp hg with ⟨day, _, hmem⟩
  rcases normal_mem_dayGroups hmem ht with ⟨p, _, hgp⟩
  rw [hgp]
  simp [normalGroup, List.any_eq_true]

/-- C5 witness: two same-contract records, one unseen, make a normal group
whose rollup flag is true. -/
theorem normalGroup_rollup_witness :
    (⟨[⟨"w52", 1, false, none, some "c5"⟩, ⟨"w51", 0, true, none, some "c5"⟩],
        "c5", true, "d5", GroupType.normal⟩ : NotificationGroup).isSeen =
        true ↔
      ∃ n ∈ (⟨[⟨"w52", 1, false, none, some "c5"⟩,
          ⟨"w51", 0, true, none, some "c5"⟩],
        "c5", true, "d5", GroupType.normal⟩ : NotificationGroup).notifications,
        n.isSeen = false :=
  normalGroup_rollup (fun _ => "d5")
    [⟨"w51", 0, true, none, some "c5"⟩, ⟨"w52", 1, false, none, some "c5"⟩]
    ⟨[⟨"w52", 1, false, none, some "c5"⟩, ⟨"w51", 0, true, none, some "c5"⟩],
      "c5", true, "d5", GroupType.normal⟩
    (by decide) rfl

/-- C6: within every normal group, `createdTime` is non-increasing across the
members, and the members carrying any fixed `createdTime` appear as a
subsequence of the input — equal-time members keep their relative input
order (the sort is stable). -/
theorem normalGroup_sort_order (dayOf : Int → String) (ns : List Notification)
    (g : NotificationGroup) (hg : g ∈ groupNotifications dayOf ns)
    (ht : g.type = GroupType.normal) :
    g.notifications.Pairwise (fun a b => b.createdTime ≤ a.createdTime) ∧
      ∀ t : Int,
        (g.notifications.filter (fun n => n.createdTime = t)).Sublist ns := by
  rcases mem_groupNotifications_iff.mp hg with ⟨day, _, hmem⟩
  rcases normal_mem_dayGroups hmem ht with ⟨p, hp, hgp⟩
  constructor
  · rw [hgp]
    exact sortDesc_pairwise p.2
  · intro t
    rw [hgp]
    show ((sortDesc p.2).filter (fun n => n.createdTime = t)).Sublist ns
    rw [filter_time_sortDesc]
    have h2 : p.2.Sublist ns := by
      rcases mem_groupByKey_iff.mp hp with ⟨_, hps⟩
      rw [hps]
      exact (List.filter_sublist _).trans
        ((List.filter_sublist _).trans (List.filter_sublist _))
    exact (List.filter_sublist _).trans h2

/-- C6 witness: three same-contract records with times 300, 100, 200 come out
ordered 300, 200, 100, and each time-slice is a subsequence of the input. -/
theorem normalGroup_sort_order_witness :
    (⟨[⟨"w61", 300, true, none, some "m1"⟩, ⟨"w63", 200, true, none, some "m1"⟩,
        ⟨"w62", 100, true, none, some "m1"⟩], "m1", false, "d6",
        GroupType.normal⟩ : NotificationGroup).notifications.Pairwise
        (fun a b => b.createdTime ≤ a.createdTime) ∧
      ∀ t : Int,
        ((⟨[⟨"w61", 300, true, none, some "m1"⟩,
            ⟨"w63", 200, true, none, some "m1"⟩,
            ⟨"w62", 100, true, none, some "m1"⟩], "m1", false, "d6",
            GroupType.normal⟩ : NotificationGroup).notifications.filter
          (fun n => n.createdTime = t)).Sublist
          [⟨"w61", 300, true, none, some "m1"⟩,
           ⟨"w62", 100, true, none, some "m1"⟩,
           ⟨"w63", 200, true, none, some "m1"⟩] :=
  normalGroup_sort_order (fun _ => "d6")
    [⟨"w61", 300, true, none, some "m1"⟩,
     ⟨"w62", 100, true, none, some "m1"⟩,
     ⟨"w63", 200, true, none, some "m1"⟩]
    ⟨[⟨"w61", 300, true, none, some "m1"⟩, ⟨"w63", 200, true, none, some "m1"⟩,
      ⟨"w62", 100, true, none, some "m1"⟩], "m1", false, "d6",
      GroupType.normal⟩
    (by decide) rfl

/-- C7 counterexample: members of one normal group need not share the same
`sourceContractId` — a record whose contract id is the literal string
"undefined" is bucketed together with a record lacking one. -/
theorem subject_cohesion_literal_fails :
    ¬ (∀ g ∈ groupNotifications (fun _ => "d")
        [⟨"a", 0, true, none, some "undefined"⟩, ⟨"b", 1, true, none, none⟩],
        g.type = GroupType.normal →
          ∀ a ∈ g.notifications, ∀ b ∈ g.notifications,
            a.sourceContractId = b.sourceContractId) := by
  decide

/-- C7 (amended): all members of a normal group share the same contract KEY —
the JS property-key string of `sourceContractId`, which is `"undefined"` for
records lacking one — and that key is the group's `groupedById`.  (A record
whose contract id is the literal string "undefined" therefore shares a group
with records lacking one.) -/
theorem normalGroup_subject_cohesion (dayOf : Int → String)
    (ns : List Notification) (g : NotificationGroup)
    (hg : g ∈ groupNotifications dayOf ns)
    (ht : g.type = GroupType.normal) (n : Notification)
    (hn : n ∈ g.notifications) :
    contractKey n = g.groupedById := by
  rcases mem_groupNotifications_iff.mp hg with ⟨day, _, hmem⟩
  exact (contractKey_of_mem_normalGroup hmem ht hn).1

/-- C7 witness: the member of a one-record normal group carries the group's
key. -/
theorem normalGroup_subject_cohesion_witness :
    contractKey ⟨"w7", 0, true, none, some "c7"⟩ =
      (⟨[⟨"w7", 0, true, none, some "c7"⟩], "c7", false, "d7",
        GroupType.normal⟩ : NotificationGroup).groupedById :=
  normalGroup_subject_cohesion (fun _ => "d7")
    [⟨"w7", 0, true, none, some "c7"⟩]
    ⟨[⟨"w7", 0, true, none, some "c7"⟩], "c7", false, "d7",
      GroupType.normal⟩
    (by decide) rfl ⟨"w7", 0, true, none, some "c7"⟩ (by decide)

/-! ## Output ordering (assembly) -/

/-- Assembly sequence written from the claim's words, parameterized by the
order in which the days are visited and by the per-day order of normal-group
keys: for each visited day, the income key (present exactly when the day has
an income record) first, then the normal keys. -/
def specAssembly (dayOf : Int → String) (ns : List Notification)
    (dayOrder : List String) (normalKeys : String → List String) :
    List (String × GroupType × String) :=
  dayOrder.flatMap (fun day =>
    (if (ns.filter (fun n => dayOf n.createdTime = day)).any isIncome then
        [(day, GroupType.income, "income" ++ day)]
      else []) ++
    (normalKeys day).map (fun k => (day, GroupType.normal, k)))

/-- The claim's per-day normal-key order, read literally: the partition keys
of the day's normal records, ordered by the first appearance of each key while
scanning ALL of that day's records (income records included), with no special
treatment of numeric keys. -/
def claimDayNormalKeys (dayOf : Int → String) (ns : List Notification)
    (day : String) : List String :=
  (dedupFirst
      ((ns.filter (fun n => dayOf n.createdTime = day)).map contractKey)).filter
    (fun k =>
      ((ns.filter (fun n => dayOf n.createdTime = day)).filter
        (fun n => !isIncome n)).map contractKey |>.contains k)

/-- The amended per-day normal-key order: the JS enumeration order of the
contract keys of the day's NORMAL (non-income) records — array-index-like
keys first in ascending numeric order, then the remaining keys in the order
they first appear while scanning those records. -/
def specDayNormalKeys (dayOf : Int → String) (ns : List Notification)
    (day : String) : List String :=
  jsKeys
    (((ns.filter (fun n => dayOf n.createdTime = day)).filter
      (fun n => !isIncome n)).map contractKey)

/-- C8 counterexample, two independent failure modes of the claimed order.
First: with an income record on contract "c2" arriving before normal records
on "c1" then "c2", the claimed key order (first appearance over ALL of the
day's records) is c2 before c1, but the code orders the normal groups by the
day's NORMAL records only: c1 before c2.  Second: with normal records on
contracts "abc" then "7", the claimed first-appearance order is abc before 7,
but JS enumerates the array-index-like key "7" first, so the code emits the
"7" group before the "abc" group. -/
theorem assembly_order_claim_fails :
    ((groupNotifications (fun _ => "d")
        [⟨"a", 0, true, some "tip", some "c2"⟩,
         ⟨"b", 1, true, none, some "c1"⟩,
         ⟨"c", 2, true, none, some "c2"⟩]).map
        (fun g => (g.timePeriod, g.type, g.groupedById)) =
      [("d", GroupType.income, "incomed"), ("d", GroupType.normal, "c1"),
        ("d", GroupType.normal, "c2")] ∧
    specAssembly (fun _ => "d")
        [⟨"a", 0, true, some "tip", some "c2"⟩,
         ⟨"b", 1, true, none, some "c1"⟩,
         ⟨"c", 2, true, none, some "c2"⟩]
        (dedupFirst (([⟨"a", 0, true, some "tip", some "c2"⟩,
           ⟨"b", 1, true, none, some "c1"⟩,
           ⟨"c", 2, true, none, some "c2"⟩] : List Notification).map
             (fun _ => "d")))
        (claimDayNormalKeys (fun _ => "d")
          [⟨"a", 0, true, some "tip", some "c2"⟩,
           ⟨"b", 1, true, none, some "c1"⟩,
           ⟨"c", 2, true, none, some "c2"⟩]) =
      [("d", GroupType.income, "incomed"), ("d", GroupType.normal, "c2"),
        ("d", GroupType.normal, "c1")] ∧
    ([("d", GroupType.income, "incomed"), ("d", GroupType.normal, "c1"),
        ("d", GroupType.normal, "c2")] :
      List (String × GroupType × String)) ≠
      [("d", GroupType.income, "incomed"), ("d", GroupType.normal, "c2"),
        ("d", GroupType.normal, "c1")]) ∧
    ((groupNotifications (fun _ => "d")
        [⟨"x", 0, true, none, some "abc"⟩, ⟨"y", 1, true, none, some "7"⟩]).map
        (fun g => (g.timePeriod, g.type, g.groupedById)) =
      [("d", GroupType.normal, "7"), ("d", GroupType.normal, "abc")] ∧
    specAssembly (fun _ => "d")
        [⟨"x", 0, true, none, some "abc"⟩, ⟨"y", 1, true, none, some "7"⟩]
        (dedupFirst (([⟨"x", 0, true, none, some "abc"⟩,
           ⟨"y", 1, true, none, some "7"⟩] : List Notification).map
             (fun _ => "d")))
        (claimDayNormalKeys (fun _ => "d")
          [⟨"x", 0, true, none, some "abc"⟩,
           ⟨"y", 1, true, none, some "7"⟩]) =
      [("d", GroupType.normal, "abc"), ("d", GroupType.normal, "7")] ∧
    ([("d", GroupType.normal, "7"), ("d", GroupType.normal, "abc")] :
      List (String × GroupType × String)) ≠
      [("d", GroupType.normal, "abc"), ("d", GroupType.normal, "7")]) := by
  refine ⟨⟨by decide, by decide, by decide⟩, by decide, by decide, by decide⟩

/-- C8 (amended): the output sequence visits the days in the JS enumeration
order of their labels (array-index-like labels first ascending, then
first-appearance input order — real `toDateString` labels are never
array-index-like, so days appear in first-appearance order); within each day
the income group comes first (present exactly when the day has income
records), then the normal groups keyed in the JS enumeration order of the
contract keys of that day's NORMAL (non-income) records: array-index-like
keys first in ascending numeric order, then the remaining keys in
first-appearance order. -/
theorem groupNotifications_assembly_order (dayOf : Int → String)
    (ns : List Notification) :
    (groupNotifications dayOf ns).map
        (fun g => (g.timePeriod, g.type, g.groupedById)) =
      specAssembly dayOf ns (jsKeys (ns.map (fun n => dayOf n.createdTime)))
        (specDayNormalKeys dayOf ns) := by
  have hGB : groupByKey (fun n => dayOf n.createdTime) ns =
      (jsKeys (ns.map (fun n => dayOf n.createdTime))).map
        (fun k => (k, ns.filter (fun n => dayOf n.createdTime = k))) := rfl
  unfold groupNotifications specAssembly
  rw [hGB, List.map_flatMap, List.flatMap_map]
  rw [List.flatMap_def, List.flatMap_def]
  congr 1
  apply List.map_congr_left
  intro day _
  show (dayGroups day (ns.filter (fun n => dayOf n.createdTime = day))).map
      (fun g => (g.timePeriod, g.type, g.groupedById)) = _
  unfold dayGroups
  rw [List.map_append, normal_part_triples]
  congr 1
  · cases hf :
        (ns.filter (fun n => dayOf n.createdTime = day)).filter isIncome with
    | nil =>
      have hany :
          (ns.filter (fun n => dayOf n.createdTime = day)).any isIncome =
            false := by
        rw [List.any_eq_false]
        intro x hx
        exact (List.filter_eq_nil_iff.mp hf) x hx
      simp [incomeGroups, hany]
    | cons f r =>
      have hmem : f ∈
          (ns.filter (fun n => dayOf n.createdTime = day)).filter isIncome := by
        rw [hf]
        exact List.mem_cons_self _ _
      have hmem' := List.mem_filter.mp hmem
      have hany :
          (ns.filter (fun n => dayOf n.createdTime = day)).any isIncome =
            true :=
        List.any_eq_true.mpr ⟨f, hmem'.1, hmem'.2⟩
      simp [incomeGroups, hany]

/-- C9: a record is in an income group iff its `sourceType` (defaulted to ""
when absent) is classified income — so records with `sourceType` in the
income set never appear in a normal group, and records whose `sourceType` is
absent or outside the set never appear in an income group. -/
theorem groupNotifications_classification (dayOf : Int → String)
    (ns : List Notification) (g : NotificationGroup)
    (hg : g ∈ groupNotifications dayOf ns) (n : Notification)
    (hn : n ∈ g.notifications) :
    g.type = GroupType.income ↔ isIncome n = true := by
  rcases mem_groupNotifications_iff.mp hg with ⟨day, _, hmem⟩
  rcases mem_dayGroups_cases hmem with h | ⟨p, hp, hgp⟩
  · rcases mem_incomeGroups h with ⟨hnotif, _, _, htype, _⟩
    rw [hnotif] at hn
    have hinc := (List.mem_filter.mp hn).2
    simp [htype, hinc]
  · have htype : g.type = GroupType.normal := by
      rw [hgp]
      rfl
    have hni := (contractKey_of_mem_normalGroup hmem htype hn).2.2
    simp [htype, hni]

/-- C9 witness: the tip record of a two-record day sits in the income group
and is income-classified; the comment record sits in the normal group. -/
theorem groupNotifications_classification_witness :
    (⟨[⟨"w91", 0, true, some "tip", some "c9"⟩], "income" ++ "d9", true, "d9",
        GroupType.income⟩ : NotificationGroup).type = GroupType.income ↔
      isIncome ⟨"w91", 0, true, some "tip", some "c9"⟩ = true :=
  groupNotifications_classification (fun _ => "d9")
    [⟨"w91", 0, true, some "tip", some "c9"⟩,
     ⟨"w92", 1, true, some "comment", some "c9"⟩]
    ⟨[⟨"w91", 0, true, some "tip", some "c9"⟩], "income" ++ "d9", true, "d9",
      GroupType.income⟩
    (by decide) ⟨"w91", 0, true, some "tip", some "c9"⟩ (by decide)

/-- C10: every group in the output has at least one member. -/
theorem groupNotifications_groups_nonempty (dayOf : Int → String)
    (ns : List Notification) (g : NotificationGroup)
    (hg : g ∈ groupNotifications dayOf ns) :
    g.notifications ≠ [] := by
  rcases mem_groupNotifications_iff.mp hg with ⟨day, _, hmem⟩
  rcases mem_dayGroups_cases hmem with h | ⟨p, hp, hgp⟩
  · rcases mem_incomeGroups h with ⟨hnotif, _, _, _, first, rest, hinc, _⟩
    rw [hnotif, hinc]
    simp
  · rw [hgp]
    show sortDesc p.2 ≠ []
    intro hnil
    have hperm := sortDesc_perm p.2
    rw [hnil] at hperm
    exact groupByKey_snd_ne_nil hp hperm.symm.eq_nil

/-- C10 witness: the group produced by a single record is nonempty. -/
theorem groupNotifications_groups_nonempty_witness :
    (⟨[⟨"w10", 0, true, none, some "c10"⟩], "c10", false, "d10",
        GroupType.normal⟩ : NotificationGroup).notifications ≠ [] :=
  groupNotifications_groups_nonempty (fun _ => "d10")
    [⟨"w10", 0, true, none, some "c10"⟩]
    ⟨[⟨"w10", 0, true, none, some "c10"⟩], "c10", false, "d10",
      GroupType.normal⟩
    (by decide)
